import Mathlib

/-!
Verification of the pricing core of the Multi-Model Derivatives Pricing Simulator.

The computational functions of the four dashboard pages are embedded over the
real numbers: `black_scholes` (page 1), `lsm_american_option_price` (page 2),
`binomial_tree` (page 3) and `black_scholes_price` / `implied_volatility`
(page 4).  Floating-point arithmetic is idealized as real arithmetic, a raised
Python exception is modelled as `Except.error ()`, and the random draws feeding
the Monte-Carlo path simulation are an explicit argument of the model.
-/

open MeasureTheory Set
open scoped Classical

noncomputable section

namespace Pricing

/-- Density kernel of the standard normal distribution, `exp (-t^2 / 2)`. -/
def gauss (t : ℝ) : ℝ := Real.exp (-(t ^ 2) / 2)

/-- Model of `scipy.stats.norm.cdf`: the standard normal cumulative
distribution function `Φ x = (∫ t ≤ x, exp (-t^2/2)) / sqrt (2 π)`. -/
def normCdf (x : ℝ) : ℝ := (∫ t in Iic x, gauss t) / Real.sqrt (2 * Real.pi)

lemma gauss_neg (t : ℝ) : gauss (-t) = gauss t := by
  unfold gauss; rw [neg_sq]

lemma integrable_gauss : Integrable gauss := by
  have h := integrable_exp_neg_mul_sq (show (0 : ℝ) < 1 / 2 by norm_num)
  refine h.congr ?_
  filter_upwards with t
  unfold gauss
  ring_nf

lemma integral_gauss : ∫ t : ℝ, gauss t = Real.sqrt (2 * Real.pi) := by
  have h := integral_gaussian (1 / 2 : ℝ)
  rw [show (∫ x : ℝ, Real.exp (-(1 / 2 : ℝ) * x ^ 2)) = ∫ t : ℝ, gauss t from by
    congr 1; funext t; unfold gauss; ring_nf] at h
  rw [h]
  congr 1
  rw [div_div_eq_mul_div, mul_comm]
  norm_num

lemma sqrt_two_pi_pos : 0 < Real.sqrt (2 * Real.pi) :=
  Real.sqrt_pos.2 (by positivity)

/-- Reflection identity of the standard normal CDF, `Φ x + Φ (-x) = 1`. -/
lemma normCdf_add_neg (x : ℝ) : normCdf x + normCdf (-x) = 1 := by
  have hrefl : (∫ t in Iic (-x), gauss t) = ∫ t in Ioi x, gauss t := by
    have h := integral_comp_neg_Iic (-x) gauss
    simp only [gauss_neg, neg_neg] at h
    exact h
  unfold normCdf
  rw [div_add_div_same, hrefl,
    intervalIntegral.integral_Iic_add_Ioi integrable_gauss.integrableOn
      integrable_gauss.integrableOn,
    integral_gauss, div_self (ne_of_gt sqrt_two_pi_pos)]

lemma continuous_normCdf : Continuous normCdf := by
  unfold normCdf
  apply Continuous.div_const
  have key : ∀ x : ℝ, (∫ t in Iic x, gauss t) =
      (∫ t in Iic 0, gauss t) + ∫ t in (0 : ℝ)..x, gauss t := by
    intro x
    rw [← intervalIntegral.integral_Iic_sub_Iic integrable_gauss.integrableOn
      integrable_gauss.integrableOn]
    ring
  rw [show (fun x : ℝ => ∫ t in Iic x, gauss t) =
      fun x => (∫ t in Iic 0, gauss t) + ∫ t in (0 : ℝ)..x, gauss t from funext key]
  exact continuous_const.add (integrable_gauss.continuous_primitive 0)

/-- Intermediate quantity `d1` of `black_scholes`
(`src/pages/1_Black-Scholes Pricer.py`, also recomputed verbatim by
`black_scholes_price` on page 4). -/
def d1 (S K T r sigma : ℝ) : ℝ :=
  (Real.log (S / K) + (r + 0.5 * sigma ^ 2) * T) / (sigma * Real.sqrt T)

/-- Intermediate quantity `d2 = d1 - sigma * sqrt T` of `black_scholes`. -/
def d2 (S K T r sigma : ℝ) : ℝ := d1 S K T r sigma - sigma * Real.sqrt T

/-- Value returned by the `option_type == 'call'` branch of `black_scholes`. -/
def bsCall (S K T r sigma : ℝ) : ℝ :=
  S * normCdf (d1 S K T r sigma) -
    K * Real.exp (-r * T) * normCdf (d2 S K T r sigma)

/-- Value returned by the `option_type == 'put'` branch of `black_scholes`. -/
def bsPut (S K T r sigma : ℝ) : ℝ :=
  K * Real.exp (-r * T) * normCdf (-d2 S K T r sigma) -
    S * normCdf (-d1 S K T r sigma)

/-- Function `black_scholes` of `src/pages/1_Black-Scholes Pricer.py`.  The
`raise ValueError(...)` branch taken when `option_type` is neither `'call'`
nor `'put'` is modelled as `Except.error ()`. -/
def black_scholes (S K T r sigma : ℝ) (option_type : String) : Except Unit ℝ :=
  if option_type = "call" then Except.ok (bsCall S K T r sigma)
  else if option_type = "put" then Except.ok (bsPut S K T r sigma)
  else Except.error ()

/-- Function `black_scholes_price` of
`src/pages/4_Implied Volatility Estimator.py`: identical formulas, but with a
bare `else` instead of an `elif`/`raise`, so every `option_type` other than
`'call'` is priced as a put. -/
def black_scholes_price (S K T r sigma : ℝ) (option_type : String) : ℝ :=
  if option_type = "call" then bsCall S K T r sigma else bsPut S K T r sigma

/-- Inner function `objective` of `implied_volatility`:
`black_scholes_price(S, K, T, r, sigma, option_type) - market_price`. -/
def objective (S K T r market_price : ℝ) (option_type : String) (sigma : ℝ) : ℝ :=
  black_scholes_price S K T r sigma option_type - market_price

/-- Modelled from the spec: `scipy.optimize.brentq`, the SciPy root finder
called by `implied_volatility`, is library code that is not part of `src/`.
Per the spec it is a bracketed root search over `[a, b]` that returns the root
when the bracket contains a sign change and raises a `ValueError` when `f a`
and `f b` have the same strict sign (`0 < f a * f b`).  The root returned is
an `x ∈ [a, b]` with `f x = 0`, chosen noncomputably; when the endpoint signs
do not rule out a root but none exists (impossible for the continuous
objectives used here) the model also signals an error. -/
def brentq (f : ℝ → ℝ) (a b : ℝ) : Except Unit ℝ :=
  if 0 < f a * f b then Except.error ()
  else if h : ∃ x ∈ Icc a b, f x = 0 then Except.ok h.choose
  else Except.error ()

/-- Function `implied_volatility` of
`src/pages/4_Implied Volatility Estimator.py`: `brentq` on `objective` over
the bracket `[1e-6, 5.0]`, with the `except ValueError: return None` handler
modelled by mapping `Except.error` to `none`. -/
def implied_volatility (S K T r market_price : ℝ) (option_type : String) :
    Option ℝ :=
  match brentq (objective S K T r market_price option_type) (1 / 1000000) 5 with
  | Except.ok x => some x
  | Except.error _ => none

/-- Cox-Ross-Rubinstein up factor `u = exp (sigma * sqrt dt)` with
`dt = T / N`, from `binomial_tree` (`src/pages/3_Binomial Tree Pricer.py`). -/
def crrU (T sigma : ℝ) (N : ℕ) : ℝ := Real.exp (sigma * Real.sqrt (T / N))

/-- Cox-Ross-Rubinstein down factor `d = 1 / u` from `binomial_tree`. -/
def crrD (T sigma : ℝ) (N : ℕ) : ℝ := 1 / crrU T sigma N

/-- Risk-neutral up probability `p = (exp (r * dt) - d) / (u - d)` from
`binomial_tree`. -/
def crrP (T r sigma : ℝ) (N : ℕ) : ℝ :=
  (Real.exp (r * (T / N)) - crrD T sigma N) / (crrU T sigma N - crrD T sigma N)

/-- Terminal row of the option-value array of `binomial_tree`:
`option[N, j]` is the payoff at the terminal price `S * u^(N-j) * d^j`. -/
def binomTerminal (S K T sigma : ℝ) (N : ℕ) (option_type : String) (j : ℕ) : ℝ :=
  let ST := S * crrU T sigma N ^ (N - j) * crrD T sigma N ^ j
  if option_type = "call" then max (ST - K) 0 else max (K - ST) 0

/-- One sweep of the backward-induction loop of `binomial_tree`: row `i` of
the option-value array as a function of row `i + 1`.  The source writes
`option[i, j] = exp(-r*dt) * (p*option[i+1, j] + (1-p)*option[i+1, j+1])`;
row `i` only reads row `i + 1`, so no in-place aliasing occurs. -/
def binomStep (T r sigma : ℝ) (N : ℕ) (row : ℕ → ℝ) (j : ℕ) : ℝ :=
  Real.exp (-r * (T / N)) *
    (crrP T r sigma N * row j + (1 - crrP T r sigma N) * row (j + 1))

/-- Function `binomial_tree` of `src/pages/3_Binomial Tree Pricer.py`.  With
`N = 0` the source raises `ZeroDivisionError` at `dt = T / N`, modelled as
`Except.error ()`; otherwise the double loop is `N` applications of
`binomStep` to the terminal row and the function returns `option[0, 0]`. -/
def binomial_tree (S K T r sigma : ℝ) (N : ℕ) (option_type : String) :
    Except Unit ℝ :=
  if N = 0 then Except.error ()
  else Except.ok
    ((binomStep T r sigma N)^[N] (binomTerminal S K T sigma N option_type) 0)

/-- One simulated geometric-Brownian-motion trajectory of
`lsm_american_option_price` (`src/pages/2_Monte Carlo Pricer.py`):
`paths[i, 0] = S0` and
`paths[i, t] = paths[i, t-1] * exp((r - 0.5*sigma^2)*dt + sigma*sqrt(dt)*z
t)`, where `z` is the trajectory's sequence of `np.random.standard_normal`
draws, an explicit argument of the model. -/
def lsmPath (S0 r sigma dt : ℝ) (z : ℕ → ℝ) : ℕ → ℝ
  | 0 => S0
  | t + 1 => lsmPath S0 r sigma dt z t *
      Real.exp ((r - 0.5 * sigma ^ 2) * dt + sigma * Real.sqrt dt * z (t + 1))

/-- Terminal cashflow vector of `lsm_american_option_price`:
`np.maximum(paths[:, -1] - K, 0)` when `option_type == 'call'` and
`np.maximum(K - paths[:, -1], 0)` otherwise. -/
def lsmTerminal (K : ℝ) (option_type : String) {m : ℕ} (sT : Fin m → ℝ) :
    Fin m → ℝ :=
  if option_type = "call" then fun i => max (sT i - K) 0
  else fun i => max (K - sT i) 0

/-- In-the-money index set `itm = np.where(paths[:, t] < K)[0]` of the put
branch of the backward loop of `lsm_american_option_price`. -/
def putItm (K : ℝ) {m : ℕ} (price : Fin m → ℝ) : Finset (Fin m) :=
  Finset.univ.filter fun i => price i < K

/-- One backward put step of `lsm_american_option_price` at a time step with
current prices `price` and cashflows `payoff`.  If `itm` is empty the source
executes `continue`, leaving `payoff` untouched.  Otherwise `lstsq` abstracts
`np.linalg.lstsq` on the quadratic design matrix: it receives the in-the-money
index set, the regressors `X = paths[itm, t]` and the targets
`Y = payoff[itm] * discount`, and yields the coefficient triple `(a, b, c)` of
the fitted quadratic continuation value; the trajectories in `itm` whose
exercise value `max (K - S_t) 0` strictly exceeds that continuation value get
their cashflow overwritten with the exercise value, and every other trajectory
is discounted one step. -/
def putStep {m : ℕ}
    (lstsq : Finset (Fin m) → (Fin m → ℝ) → (Fin m → ℝ) → ℝ × ℝ × ℝ)
    (K disc : ℝ) (price payoff : Fin m → ℝ) : Fin m → ℝ :=
  let itm := putItm K price
  if itm = ∅ then payoff
  else
    let c := lstsq itm price fun i => payoff i * disc
    let contVal : Fin m → ℝ := fun i => c.1 + c.2.1 * price i + c.2.2 * price i ^ 2
    let exVal : Fin m → ℝ := fun i => max (K - price i) 0
    fun i => if i ∈ itm ∧ contVal i < exVal i then exVal i else payoff i * disc

/-- Body of one iteration of the backward loop of
`lsm_american_option_price`: for `option_type == 'call'` the cashflow vector
is only discounted (`payoff *= discount; continue`); otherwise the put step
runs. -/
def lsmStep {m : ℕ}
    (lstsq : Finset (Fin m) → (Fin m → ℝ) → (Fin m → ℝ) → ℝ × ℝ × ℝ)
    (K disc : ℝ) (option_type : String) (price payoff : Fin m → ℝ) :
    Fin m → ℝ :=
  if option_type = "call" then fun i => payoff i * disc
  else putStep lstsq K disc price payoff

/-- Backward loop `for t in range(steps - 1, 0, -1)` of
`lsm_american_option_price`: `lsmLoop ... t payoff` processes the time steps
`t, t - 1, ..., 1` in that order (invoked with `t = steps - 1`). -/
def lsmLoop {m : ℕ}
    (lstsq : Finset (Fin m) → (Fin m → ℝ) → (Fin m → ℝ) → ℝ × ℝ × ℝ)
    (K disc : ℝ) (option_type : String) (paths : Fin m → ℕ → ℝ) :
    ℕ → (Fin m → ℝ) → Fin m → ℝ
  | 0, payoff => payoff
  | t + 1, payoff =>
      lsmLoop lstsq K disc option_type paths t
        (lsmStep lstsq K disc option_type (fun i => paths i (t + 1)) payoff)

/-- Deterministic core of `lsm_american_option_price` on a fixed path matrix:
terminal payoffs, the backward loop, then `np.mean(payoff) * exp(-r*dt)`
(the mean over the `m` trajectories followed by one final one-step
discount). -/
def lsmCore {m : ℕ}
    (lstsq : Finset (Fin m) → (Fin m → ℝ) → (Fin m → ℝ) → ℝ × ℝ × ℝ)
    (K disc : ℝ) (option_type : String) (paths : Fin m → ℕ → ℝ)
    (steps : ℕ) : ℝ :=
  let payoffT := lsmTerminal K option_type fun i => paths i steps
  let payoff0 := lsmLoop lstsq K disc option_type paths (steps - 1) payoffT
  (∑ i, payoff0 i) / (m : ℝ) * disc

/-- Function `lsm_american_option_price` of
`src/pages/2_Monte Carlo Pricer.py`.  With `steps = 0` the source raises
`ZeroDivisionError` at `dt = T / steps`, modelled as `Except.error ()`.  The
`np.random.standard_normal` draws are the explicit argument `z`
(`z i t` drives trajectory `i` at time step `t`) and `np.linalg.lstsq` is the
explicit argument `lstsq` (see `putStep`). -/
def lsm_american_option_price (S0 K T r sigma : ℝ) (option_type : String)
    (simulations steps : ℕ)
    (lstsq : Finset (Fin simulations) → (Fin simulations → ℝ) →
      (Fin simulations → ℝ) → ℝ × ℝ × ℝ)
    (z : Fin simulations → ℕ → ℝ) : Except Unit ℝ :=
  if steps = 0 then Except.error ()
  else
    let dt := T / steps
    let disc := Real.exp (-r * dt)
    let paths : Fin simulations → ℕ → ℝ := fun i => lsmPath S0 r sigma dt (z i)
    Except.ok (lsmCore lstsq K disc option_type paths steps)

/-- C1: for every spot, strike, maturity, rate and volatility, the analytic
pricer returns `S * Φ d1 - K * exp (-r T) * Φ d2` for a call and
`K * exp (-r T) * Φ (-d2) - S * Φ (-d1)` for a put, with
`d1 = (log (S/K) + (r + 0.5 sigma^2) T) / (sigma sqrt T)` and
`d2 = d1 - sigma sqrt T`, where `Φ` is the standard normal CDF; the page-4
copy `black_scholes_price` computes the same two formulas. -/
theorem analytic_pricer_formula (S K T r sigma : ℝ) :
    black_scholes S K T r sigma "call" = Except.ok
      (S * normCdf ((Real.log (S / K) + (r + 0.5 * sigma ^ 2) * T) /
          (sigma * Real.sqrt T)) -
        K * Real.exp (-r * T) *
          normCdf ((Real.log (S / K) + (r + 0.5 * sigma ^ 2) * T) /
              (sigma * Real.sqrt T) - sigma * Real.sqrt T)) ∧
    black_scholes S K T r sigma "put" = Except.ok
      (K * Real.exp (-r * T) *
          normCdf (-((Real.log (S / K) + (r + 0.5 * sigma ^ 2) * T) /
              (sigma * Real.sqrt T) - sigma * Real.sqrt T)) -
        S * normCdf (-((Real.log (S / K) + (r + 0.5 * sigma ^ 2) * T) /
            (sigma * Real.sqrt T)))) ∧
    black_scholes_price S K T r sigma "call" = bsCall S K T r sigma ∧
    black_scholes_price S K T r sigma "put" = bsPut S K T r sigma := by
  refine ⟨?_, ?_, ?_, ?_⟩
  · rw [black_scholes, if_pos rfl]; rfl
  · rw [black_scholes, if_neg (by decide), if_pos rfl]; rfl
  · rw [black_scholes_price, if_pos rfl]
  · rw [black_scholes_price, if_neg (by decide)]

/-- C6: the page-1 analytic pricer rejects every option kind that is neither
`'call'` nor `'put'` with a `ValueError` (the `InvalidOptionKind` condition),
reported to the caller instead of a price. -/
theorem black_scholes_invalid_kind (S K T r sigma : ℝ) (option_type : String)
    (hc : option_type ≠ "call") (hp : option_type ≠ "put") :
    black_scholes S K T r sigma option_type = Except.error () := by
  rw [black_scholes, if_neg hc, if_neg hp]

theorem black_scholes_invalid_kind_witness :
    black_scholes 1 1 1 0 1 "banana" = Except.error () :=
  black_scholes_invalid_kind 1 1 1 0 1 "banana" (by decide) (by decide)

/-- C9: put-call parity for the analytic pricer,
`call price - put price = S - K * exp (-r T)`, exactly over the reals. -/
theorem put_call_parity (S K T r sigma : ℝ) :
    black_scholes S K T r sigma "call" = Except.ok (bsCall S K T r sigma) ∧
    black_scholes S K T r sigma "put" = Except.ok (bsPut S K T r sigma) ∧
    bsCall S K T r sigma - bsPut S K T r sigma =
      S - K * Real.exp (-r * T) := by
  refine ⟨by rw [black_scholes, if_pos rfl],
    by rw [black_scholes, if_neg (by decide), if_pos rfl], ?_⟩
  have h1 := normCdf_add_neg (d1 S K T r sigma)
  have h2 := normCdf_add_neg (d2 S K T r sigma)
  unfold bsCall bsPut
  linear_combination S * h1 - K * Real.exp (-r * T) * h2

lemma binomTerminal_non_call (S K T sigma : ℝ) (N : ℕ) (kind : String)
    (hc : kind ≠ "call") :
    binomTerminal S K T sigma N kind = binomTerminal S K T sigma N "put" := by
  funext j
  simp only [binomTerminal, if_neg hc,
    if_neg (show ("put" : String) ≠ "call" from by decide)]

lemma lsmTerminal_non_call (K : ℝ) (kind : String) {m : ℕ} (sT : Fin m → ℝ)
    (hc : kind ≠ "call") :
    lsmTerminal K kind sT = lsmTerminal K "put" sT := by
  simp only [lsmTerminal, if_neg hc,
    if_neg (show ("put" : String) ≠ "call" from by decide)]

lemma lsmLoop_non_call {m : ℕ}
    (lstsq : Finset (Fin m) → (Fin m → ℝ) → (Fin m → ℝ) → ℝ × ℝ × ℝ)
    (K disc : ℝ) (kind : String) (paths : Fin m → ℕ → ℝ)
    (hc : kind ≠ "call") :
    ∀ (t : ℕ) (payoff : Fin m → ℝ),
      lsmLoop lstsq K disc kind paths t payoff =
        lsmLoop lstsq K disc "put" paths t payoff := by
  intro t
  induction t with
  | zero => intro payoff; rfl
  | succ t ih =>
      intro payoff
      simp only [lsmLoop, lsmStep, if_neg hc,
        if_neg (show ("put" : String) ≠ "call" from by decide)]
      exact ih _

lemma lsmCore_non_call {m : ℕ}
    (lstsq : Finset (Fin m) → (Fin m → ℝ) → (Fin m → ℝ) → ℝ × ℝ × ℝ)
    (K disc : ℝ) (kind : String) (paths : Fin m → ℕ → ℝ) (steps : ℕ)
    (hc : kind ≠ "call") :
    lsmCore lstsq K disc kind paths steps =
      lsmCore lstsq K disc "put" paths steps := by
  simp only [lsmCore]
  rw [lsmTerminal_non_call K kind _ hc, lsmLoop_non_call lstsq K disc kind paths hc]

/-- C10: every option-type string other than `'call'` (for example
`'banana'`) sends `binomial_tree`, `lsm_american_option_price` and the page-4
`black_scholes_price` down the put branch, so they return the put value with
no `InvalidOptionKind` error; only the page-1 `black_scholes` rejects unknown
kinds. -/
theorem non_call_kinds_take_put_branch (S K T r sigma S0 : ℝ)
    (N simulations steps : ℕ) (option_type : String)
    (lstsq : Finset (Fin simulations) → (Fin simulations → ℝ) →
      (Fin simulations → ℝ) → ℝ × ℝ × ℝ)
    (z : Fin simulations → ℕ → ℝ) (hc : option_type ≠ "call") :
    binomial_tree S K T r sigma N option_type =
      binomial_tree S K T r sigma N "put" ∧
    lsm_american_option_price S0 K T r sigma option_type simulations steps
        lstsq z =
      lsm_american_option_price S0 K T r sigma "put" simulations steps
        lstsq z ∧
    black_scholes_price S K T r sigma option_type = bsPut S K T r sigma ∧
    (option_type ≠ "put" →
      black_scholes S K T r sigma option_type = Except.error ()) := by
  refine ⟨?_, ?_, ?_, fun hp => black_scholes_invalid_kind S K T r sigma _ hc hp⟩
  · rw [binomial_tree, binomial_tree, binomTerminal_non_call S K T sigma N _ hc]
  · rw [lsm_american_option_price, lsm_american_option_price]
    by_cases hst : steps = 0
    · rw [if_pos hst, if_pos hst]
    · rw [if_neg hst, if_neg hst]
      exact congrArg Except.ok (lsmCore_non_call lstsq K _ option_type _ steps hc)
  · rw [black_scholes_price, if_neg hc]

theorem non_call_kinds_take_put_branch_witness :
    binomial_tree 1 1 1 0 1 2 "banana" = binomial_tree 1 1 1 0 1 2 "put" ∧
    lsm_american_option_price 1 1 1 0 1 "banana" 1 2
        (fun _ _ _ => ((0 : ℝ), 0, 0)) (fun _ _ => 0) =
      lsm_american_option_price 1 1 1 0 1 "put" 1 2
        (fun _ _ _ => ((0 : ℝ), 0, 0)) (fun _ _ => 0) ∧
    black_scholes_price 1 1 1 0 1 "banana" = bsPut 1 1 1 0 1 ∧
    black_scholes 1 1 1 0 1 "banana" = Except.error () := by
  have h := non_call_kinds_take_put_branch 1 1 1 0 1 1 2 1 2 "banana"
    (fun _ _ _ => ((0 : ℝ), 0, 0)) (fun _ _ => 0) (by decide)
  exact ⟨h.1, h.2.1, h.2.2.1, h.2.2.2 (by decide)⟩

/-- C2 counterexample: at a backward put step where no trajectory is
in-the-money (one trajectory, price 2, strike 1) the code leaves the cashflow
vector untouched (`continue`), while the claim demands that it be multiplied
by the one-step discount `exp (-r dt)` (here `exp (-1) ≠ 1`, so the two
behaviors differ on the cashflow value 1). -/
theorem lsm_put_empty_itm_no_discount_cex :
    putStep (fun _ _ _ => ((0 : ℝ), 0, 0)) 1 (Real.exp (-1))
        (fun _ : Fin 1 => 2) (fun _ => 1) 0 = 1 ∧
      (1 : ℝ) * Real.exp (-1) ≠ 1 := by
  constructor
  · have hempty : putItm (1 : ℝ) (fun _ : Fin 1 => 2) = ∅ := by
      simp [putItm, Finset.filter_eq_empty_iff]
    simp only [putStep]
    rw [if_pos hempty]
  · rw [one_mul]
    exact ne_of_lt (Real.exp_lt_one_iff.2 (by norm_num))

/-- C2 (amended): at a backward put step, if no trajectory has `S_t < K` the
cashflow vector is left entirely unchanged (not discounted); otherwise
exactly the in-the-money trajectories whose exercise value
`max (K - S_t) 0` strictly exceeds the regression-fitted continuation value
`a + b S_t + c S_t^2` have their cashflow overwritten with the undiscounted
exercise value, and every other trajectory's cashflow is multiplied by the
one-step discount factor. -/
theorem lsm_put_step_semantics {m : ℕ}
    (lstsq : Finset (Fin m) → (Fin m → ℝ) → (Fin m → ℝ) → ℝ × ℝ × ℝ)
    (K disc : ℝ) (price payoff : Fin m → ℝ) :
    (putItm K price = ∅ → putStep lstsq K disc price payoff = payoff) ∧
    (putItm K price ≠ ∅ →
      ∀ i : Fin m,
        putStep lstsq K disc price payoff i =
          if price i < K ∧
              (lstsq (putItm K price) price fun j => payoff j * disc).1 +
                (lstsq (putItm K price) price fun j => payoff j * disc).2.1 *
                  price i +
                (lstsq (putItm K price) price fun j => payoff j * disc).2.2 *
                  price i ^ 2 <
                max (K - price i) 0
            then max (K - price i) 0
            else payoff i * disc) := by
  constructor
  · intro h
    simp only [putStep]
    rw [if_pos h]
  · intro h i
    simp only [putStep]
    rw [if_neg h]
    simp only [putItm, Finset.mem_filter, Finset.mem_univ, true_and]

theorem lsm_put_step_semantics_witness :
    putStep (fun _ _ _ => ((0 : ℝ), 0, 0)) 1 (Real.exp (-1))
        (fun _ : Fin 1 => 0) (fun _ => 1) 0 = 1 := by
  have h := (lsm_put_step_semantics (fun _ _ _ => ((0 : ℝ), 0, 0)) 1
    (Real.exp (-1)) (fun _ : Fin 1 => 0) (fun _ => 1)).2
  have hne : putItm (1 : ℝ) (fun _ : Fin 1 => 0) ≠ ∅ := by
    refine Finset.ne_empty_of_mem (a := (0 : Fin 1)) ?_
    simp [putItm]
  rw [h hne 0, if_pos (by norm_num)]
  norm_num

lemma lsmLoop_call {m : ℕ}
    (lstsq : Finset (Fin m) → (Fin m → ℝ) → (Fin m → ℝ) → ℝ × ℝ × ℝ)
    (K disc : ℝ) (paths : Fin m → ℕ → ℝ) :
    ∀ (t : ℕ) (payoff : Fin m → ℝ),
      lsmLoop lstsq K disc "call" paths t payoff =
        fun i => payoff i * disc ^ t := by
  intro t
  induction t with
  | zero =>
      intro payoff
      funext i
      rw [lsmLoop, pow_zero, mul_one]
  | succ t ih =>
      intro payoff
      rw [lsmLoop, lsmStep, if_pos rfl, ih]
      funext i
      rw [pow_succ]
      ring

/-- C3: for kind `'call'`, the backward pass of the regression Monte-Carlo
pricer on any fixed path matrix only discounts the cashflow vector (one
factor `exp (-r dt)` per iteration, with no early-exercise evaluation), so
after the final one-step discount the result equals
`exp (-r T) * mean (max (S_T - K) 0)`, the European-call Monte-Carlo estimate
over the same paths; consequently `lsm_american_option_price` for a call
returns exactly that value on the paths it simulates. -/
theorem lsm_call_european_equiv {m : ℕ}
    (lstsq : Finset (Fin m) → (Fin m → ℝ) → (Fin m → ℝ) → ℝ × ℝ × ℝ)
    (S0 K T r sigma : ℝ) (steps : ℕ) (hsteps : 1 ≤ steps) :
    (∀ paths : Fin m → ℕ → ℝ,
      lsmCore lstsq K (Real.exp (-r * (T / steps))) "call" paths steps =
        Real.exp (-r * T) * ((∑ i, max (paths i steps - K) 0) / (m : ℝ))) ∧
    (∀ z : Fin m → ℕ → ℝ,
      lsm_american_option_price S0 K T r sigma "call" m steps lstsq z =
        Except.ok (Real.exp (-r * T) *
          ((∑ i, max (lsmPath S0 r sigma (T / steps) (z i) steps - K) 0) /
            (m : ℝ)))) := by
  have hns : (steps : ℝ) ≠ 0 := Nat.cast_ne_zero.2 (by omega)
  have hmain : ∀ paths : Fin m → ℕ → ℝ,
      lsmCore lstsq K (Real.exp (-r * (T / steps))) "call" paths steps =
        Real.exp (-r * T) * ((∑ i, max (paths i steps - K) 0) / (m : ℝ)) := by
    intro paths
    simp only [lsmCore, lsmTerminal, if_pos rfl,
      lsmLoop_call lstsq K (Real.exp (-r * (T / steps))) paths]
    rw [← Finset.sum_mul]
    have hpow : Real.exp (-r * (T / steps)) ^ (steps - 1) *
        Real.exp (-r * (T / steps)) = Real.exp (-r * T) := by
      rw [← pow_succ, Nat.sub_add_cancel hsteps, ← Real.exp_nat_mul]
      congr 1
      field_simp
      ring
    calc (∑ i, max (paths i steps - K) 0) *
          Real.exp (-r * (T / steps)) ^ (steps - 1) / (m : ℝ) *
          Real.exp (-r * (T / steps))
        = (∑ i, max (paths i steps - K) 0) / (m : ℝ) *
            (Real.exp (-r * (T / steps)) ^ (steps - 1) *
              Real.exp (-r * (T / steps))) := by ring
      _ = Real.exp (-r * T) * ((∑ i, max (paths i steps - K) 0) / (m : ℝ)) := by
          rw [hpow]; ring
  refine ⟨hmain, fun z => ?_⟩
  rw [lsm_american_option_price, if_neg (by omega)]
  exact congrArg Except.ok (hmain fun i => lsmPath S0 r sigma (T / steps) (z i))

theorem lsm_call_european_equiv_witness :
    lsm_american_option_price 1 1 1 0 1 "call" 1 1
        (fun _ _ _ => ((0 : ℝ), 0, 0)) (fun _ _ => 0) =
      Except.ok (Real.exp (-0 * 1) *
        ((∑ _i : Fin 1,
            max (lsmPath 1 0 1 (1 / ((1 : ℕ) : ℝ)) (fun _ => (0 : ℝ)) 1 - 1) 0) /
          ((1 : ℕ) : ℝ))) :=
  (lsm_call_european_equiv (fun _ _ _ => ((0 : ℝ), 0, 0)) 1 1 1 0 1 1
    le_rfl).2 (fun _ _ => 0)

/-- C4: for `steps ≥ 1` the lattice pricer computes exactly the claimed
no-early-exercise backward induction: there is a value array `rows` whose
terminal row carries the payoffs at the prices `S * u^(N-j) * d^j` (with
`u = exp (sigma * sqrt (T/N))` and `d = 1/u`), whose every interior node is
the one-step-discounted risk-neutral expectation of its two children with no
early-exercise comparison, and whose step-0 root entry is the returned
value. -/
theorem binomial_tree_backward_induction (S K T r sigma : ℝ) (N : ℕ)
    (option_type : String) (hN : 1 ≤ N) :
    ∃ rows : ℕ → ℕ → ℝ,
      (∀ j, rows N j =
        (if option_type = "call"
          then max (S * crrU T sigma N ^ (N - j) * crrD T sigma N ^ j - K) 0
          else max (K - S * crrU T sigma N ^ (N - j) * crrD T sigma N ^ j) 0)) ∧
      (∀ i, i < N → ∀ j, rows i j =
        Real.exp (-r * (T / N)) *
          (crrP T r sigma N * rows (i + 1) j +
            (1 - crrP T r sigma N) * rows (i + 1) (j + 1))) ∧
      crrU T sigma N = Real.exp (sigma * Real.sqrt (T / N)) ∧
      crrD T sigma N = 1 / crrU T sigma N ∧
      binomial_tree S K T r sigma N option_type = Except.ok (rows 0 0) := by
  refine ⟨fun i => (binomStep T r sigma N)^[N - i]
    (binomTerminal S K T sigma N option_type), ?_, ?_, rfl, rfl, ?_⟩
  · intro j
    show (binomStep T r sigma N)^[N - N]
      (binomTerminal S K T sigma N option_type) j = _
    rw [Nat.sub_self, Function.iterate_zero_apply]
    rfl
  · intro i hi j
    have hNi : N - i = (N - (i + 1)) + 1 := by omega
    show (binomStep T r sigma N)^[N - i]
      (binomTerminal S K T sigma N option_type) j = _
    rw [hNi, Function.iterate_succ_apply']
    rfl
  · rw [binomial_tree, if_neg (by omega)]
    rfl

theorem binomial_tree_backward_induction_witness :
    ∃ rows : ℕ → ℕ → ℝ,
      (∀ j, rows 1 j =
        (if ("call" : String) = "call"
          then max ((1 : ℝ) * crrU 1 1 1 ^ (1 - j) * crrD 1 1 1 ^ j - 1) 0
          else max ((1 : ℝ) - 1 * crrU 1 1 1 ^ (1 - j) * crrD 1 1 1 ^ j) 0)) ∧
      (∀ i, i < 1 → ∀ j, rows i j =
        Real.exp (-0 * ((1 : ℝ) / ((1 : ℕ) : ℝ))) *
          (crrP 1 0 1 1 * rows (i + 1) j +
            (1 - crrP 1 0 1 1) * rows (i + 1) (j + 1))) ∧
      crrU 1 1 1 = Real.exp (1 * Real.sqrt ((1 : ℝ) / ((1 : ℕ) : ℝ))) ∧
      crrD 1 1 1 = 1 / crrU 1 1 1 ∧
      binomial_tree 1 1 1 0 1 1 "call" = Except.ok (rows 0 0) :=
  binomial_tree_backward_induction 1 1 1 0 1 1 "call" le_rfl

/-- C7 (amended): neither pricer performs designed count validation.
`binomial_tree` and `lsm_american_option_price` do fail for `steps = 0`, but
only via the unhandled `ZeroDivisionError` raised at `dt = T / steps`; and
for `simulations < 1` with `steps ≥ 1` the Monte-Carlo pricer does not fail
at all: it returns a numeric result (`NaN` from `np.mean` of an empty vector
in the source, the junk mean `0` of the real-valued model) with no error
condition signaled. -/
theorem count_validation_semantics (S K T r sigma S0 : ℝ) (kind : String)
    (simulations steps : ℕ)
    (lstsq : Finset (Fin simulations) → (Fin simulations → ℝ) →
      (Fin simulations → ℝ) → ℝ × ℝ × ℝ)
    (z : Fin simulations → ℕ → ℝ)
    (lstsq0 : Finset (Fin 0) → (Fin 0 → ℝ) → (Fin 0 → ℝ) → ℝ × ℝ × ℝ)
    (z0 : Fin 0 → ℕ → ℝ) :
    binomial_tree S K T r sigma 0 kind = Except.error () ∧
    lsm_american_option_price S0 K T r sigma kind simulations 0 lstsq z =
      Except.error () ∧
    (1 ≤ steps →
      lsm_american_option_price S0 K T r sigma kind 0 steps lstsq0 z0 =
        Except.ok 0) := by
  refine ⟨rfl, rfl, fun hsteps => ?_⟩
  have hs0 : steps ≠ 0 := by omega
  simp only [lsm_american_option_price, if_neg hs0, lsmCore,
    Finset.univ_eq_empty, Finset.sum_empty, Nat.cast_zero, zero_div, zero_mul]

theorem count_validation_semantics_witness :
    binomial_tree 1 1 1 0 1 0 "call" = Except.error () ∧
    lsm_american_option_price 1 1 1 0 1 "call" 1 0
        (fun _ _ _ => ((0 : ℝ), 0, 0)) (fun _ _ => 0) = Except.error () ∧
    lsm_american_option_price 1 1 1 0 1 "call" 0 1
        (fun _ _ _ => ((0 : ℝ), 0, 0)) (fun _ _ => 0) = Except.ok 0 := by
  have h := count_validation_semantics 1 1 1 0 1 1 "call" 1 1
    (fun _ _ _ => ((0 : ℝ), 0, 0)) (fun _ _ => 0)
    (fun _ _ _ => ((0 : ℝ), 0, 0)) (fun _ _ => 0)
  exact ⟨h.1, h.2.1, h.2.2 le_rfl⟩

/-- C7 counterexample: a Monte-Carlo put priced with `simulations = 0 < 1`
(and `steps = 1`) does not fail with any `InvalidSampleCount` condition: the
function runs to completion and returns a numeric value to the caller. -/
theorem lsm_zero_simulations_returns_value_cex :
    lsm_american_option_price 1 1 1 0 1 "put" 0 1
        (fun _ _ _ => ((0 : ℝ), 0, 0)) (fun _ _ => 0) = Except.ok 0 := by
  simp only [lsm_american_option_price, if_neg one_ne_zero, lsmCore,
    Finset.univ_eq_empty, Finset.sum_empty, Nat.cast_zero, zero_div, zero_mul]

lemma crrP_example_gt_one : 1 < crrP 1 1 (0.5) 1 := by
  have e1 : (1 : ℝ) * ((1 : ℝ) / ((1 : ℕ) : ℝ)) = 1 := by norm_num
  have e2 : (0.5 : ℝ) * Real.sqrt ((1 : ℝ) / ((1 : ℕ) : ℝ)) = 0.5 := by
    norm_num [Real.sqrt_one]
  have hlt1 : Real.exp (-(0.5 : ℝ)) < Real.exp (0.5) :=
    Real.exp_lt_exp.2 (by norm_num)
  have hlt2 : Real.exp (0.5 : ℝ) < Real.exp 1 := Real.exp_lt_exp.2 (by norm_num)
  rw [crrP, crrD, crrU, e1, e2, one_div, ← Real.exp_neg]
  rw [one_lt_div (by linarith)]
  linarith

/-- C8 counterexample: at `S = K = T = 1`, `r = 1`, `sigma = 0.5`, `N = 1`
the derived risk-neutral probability satisfies `p > 1`, yet `binomial_tree`
signals no `OutOfRangeProbability` warning or error: it silently returns the
numerically computed price. -/
theorem binomial_tree_p_out_of_range_silent_cex :
    1 < crrP 1 1 (0.5) 1 ∧
      (binomial_tree 1 1 1 1 (0.5) 1 "call").isOk = true :=
  ⟨crrP_example_gt_one, by rw [binomial_tree, if_neg one_ne_zero]; rfl⟩

/-- C8 (amended): the lattice pricer never checks the derived risk-neutral
probability: for every `steps ≥ 1`, even when `p` falls outside `[0, 1]`, it
silently returns the numerically computed price with no warning or error. -/
theorem binomial_tree_no_probability_check (S K T r sigma : ℝ) (N : ℕ)
    (kind : String) (hN : 1 ≤ N)
    (_hp : crrP T r sigma N < 0 ∨ 1 < crrP T r sigma N) :
    (binomial_tree S K T r sigma N kind).isOk = true := by
  rw [binomial_tree, if_neg (by omega)]
  rfl

theorem binomial_tree_no_probability_check_witness :
    (binomial_tree 1 1 1 1 (0.5) 1 "call").isOk = true :=
  binomial_tree_no_probability_check 1 1 1 1 (0.5) 1 "call" le_rfl
    (Or.inr crrP_example_gt_one)

lemma continuousOn_objective (S K T r market_price : ℝ) (option_type : String)
    (hT : 0 < T) (a b : ℝ) (ha : 0 < a) :
    ContinuousOn (objective S K T r market_price option_type) (Icc a b) := by
  have hsqrtT : Real.sqrt T ≠ 0 := ne_of_gt (Real.sqrt_pos.2 hT)
  have hden : Continuous fun sigma : ℝ => sigma * Real.sqrt T := by fun_prop
  have hd1 : ContinuousOn (fun sigma => d1 S K T r sigma) (Icc a b) := by
    unfold d1
    apply ContinuousOn.div
    · exact (by fun_prop : Continuous fun sigma : ℝ =>
        Real.log (S / K) + (r + 0.5 * sigma ^ 2) * T).continuousOn
    · exact hden.continuousOn
    · intro x hx
      exact mul_ne_zero (ne_of_gt (lt_of_lt_of_le ha hx.1)) hsqrtT
  have hd2 : ContinuousOn (fun sigma => d2 S K T r sigma) (Icc a b) := by
    unfold d2
    exact hd1.sub hden.continuousOn
  have hcall : ContinuousOn (fun sigma => bsCall S K T r sigma) (Icc a b) := by
    unfold bsCall
    exact (continuousOn_const.mul (continuous_normCdf.comp_continuousOn hd1)).sub
      (continuousOn_const.mul (continuous_normCdf.comp_continuousOn hd2))
  have hput : ContinuousOn (fun sigma => bsPut S K T r sigma) (Icc a b) := by
    unfold bsPut
    exact (continuousOn_const.mul
        (continuous_normCdf.comp_continuousOn hd2.neg)).sub
      (continuousOn_const.mul (continuous_normCdf.comp_continuousOn hd1.neg))
  unfold objective black_scholes_price
  by_cases hk : option_type = "call"
  · simp only [if_pos hk]
    exact hcall.sub continuousOn_const
  · simp only [if_neg hk]
    exact hput.sub continuousOn_const

lemma brentq_ok_of_sign_change (f : ℝ → ℝ) (a b : ℝ) (hab : a ≤ b)
    (hcont : ContinuousOn f (Icc a b)) (hsign : f a * f b ≤ 0) :
    ∃ x ∈ Icc a b, brentq f a b = Except.ok x ∧ f x = 0 := by
  have hroot : ∃ x ∈ Icc a b, f x = 0 := by
    rcases mul_nonpos_iff.1 hsign with ⟨h1, h2⟩ | ⟨h1, h2⟩
    · obtain ⟨x, hx, hfx⟩ := intermediate_value_Icc' hab hcont ⟨h2, h1⟩
      exact ⟨x, hx, hfx⟩
    · obtain ⟨x, hx, hfx⟩ := intermediate_value_Icc hab hcont ⟨h1, h2⟩
      exact ⟨x, hx, hfx⟩
  refine ⟨hroot.choose, hroot.choose_spec.1, ?_, hroot.choose_spec.2⟩
  rw [brentq, if_neg (not_lt.2 hsign), dif_pos hroot]

lemma brentq_error_of_no_sign_change (f : ℝ → ℝ) (a b : ℝ)
    (h : 0 < f a * f b) : brentq f a b = Except.error () := by
  rw [brentq, if_pos h]

lemma brentq_ok_imp_root (f : ℝ → ℝ) (a b x : ℝ)
    (h : brentq f a b = Except.ok x) : x ∈ Icc a b ∧ f x = 0 := by
  rw [brentq] at h
  by_cases h1 : 0 < f a * f b
  · rw [if_pos h1] at h
    exact Except.noConfusion h
  · rw [if_neg h1] at h
    by_cases h2 : ∃ x ∈ Icc a b, f x = 0
    · rw [dif_pos h2] at h
      rw [Except.ok.injEq] at h
      subst h
      exact ⟨h2.choose_spec.1, h2.choose_spec.2⟩
    · rw [dif_neg h2] at h
      exact Except.noConfusion h

/-- C5: the implied-volatility solver returns a root of the objective
`black_scholes_price(S, K, T, r, sigma, kind) - market_price` whenever the
objective changes sign over the bracket `[1e-6, 5]`; when the endpoint
values have the same strict sign (no sign change) it returns the `None`
sentinel; and every value it ever returns is a genuine root inside the
bracket — the `try/except` around `brentq` means no exception reaches the
caller. -/
theorem implied_vol_bracket_semantics (S K T r market_price : ℝ)
    (option_type : String) (hT : 0 < T) :
    (objective S K T r market_price option_type (1 / 1000000) *
        objective S K T r market_price option_type 5 ≤ 0 →
      ∃ x ∈ Icc (1 / 1000000 : ℝ) 5,
        implied_volatility S K T r market_price option_type = some x ∧
        objective S K T r market_price option_type x = 0) ∧
    (0 < objective S K T r market_price option_type (1 / 1000000) *
        objective S K T r market_price option_type 5 →
      implied_volatility S K T r market_price option_type = none) ∧
    (∀ x, implied_volatility S K T r market_price option_type = some x →
      x ∈ Icc (1 / 1000000 : ℝ) 5 ∧
        objective S K T r market_price option_type x = 0) := by
  have hcont := continuousOn_objective S K T r market_price option_type hT
    (1 / 1000000) 5 (by norm_num)
  refine ⟨?_, ?_, ?_⟩
  · intro hsign
    obtain ⟨x, hx, hok, hfx⟩ :=
      brentq_ok_of_sign_change _ _ _ (by norm_num) hcont hsign
    refine ⟨x, hx, ?_, hfx⟩
    rw [implied_volatility, hok]
  · intro hsign
    rw [implied_volatility, brentq_error_of_no_sign_change _ _ _ hsign]
  · intro x hx
    rw [implied_volatility] at hx
    rcases hb : brentq (objective S K T r market_price option_type)
        (1 / 1000000) 5 with y | y
    · rw [hb] at hx
      exact Option.noConfusion hx
    · rw [hb] at hx
      injection hx with hyx
      subst hyx
      exact brentq_ok_imp_root _ _ _ _ hb

theorem implied_vol_bracket_semantics_witness :
    implied_volatility 0 0 1 0 1 "call" = none := by
  have h := (implied_vol_bracket_semantics 0 0 1 0 1 "call" one_pos).2.1
  apply h
  have hobj : ∀ sigma : ℝ, objective 0 0 1 0 1 "call" sigma = -1 := by
    intro sigma
    simp [objective, black_scholes_price, bsCall]
  rw [hobj, hobj]
  norm_num

end Pricing
